import Mathlib

/-!
Shallow embedding of the facial-recognition API core
(`app/services/face_service.py`, `app/services/recognition_service.py`,
`app/services/cnn.py`, `app/services/feature_extraction.py`,
`app/utils/file_utils.py`) and proofs about it.

Conventions:
* descriptors produced by the external `face_recognition` library are
  modelled as rational / real vectors (`List ℚ` in the registry model,
  `List ℝ` in the matcher, where a Euclidean square root is needed);
* an image is modelled by the list of face descriptors the external
  detector/encoder would produce for it;
* the filesystem image store is an association list from filename to
  image, in directory-listing order;
* floating point is idealised as exact rational/real arithmetic.
-/

namespace FaceAPI

/-- A face descriptor (numeric feature vector). -/
abbrev Desc := List ℚ

/-- An uploaded or stored image, modelled by the list of face descriptors
the external `face_recognition.face_encodings` call yields on it (in
detection order; empty list = no face detected). -/
structure Img where
  faces : List Desc
deriving DecidableEq

/-! ### String utilities

Character-list models of the Python stdlib / werkzeug helpers used by
`face_service.py`.  These are external library functions (not repository
code), embedded from their documented behaviour on ASCII input. -/

/-- Characters after the last dot of a filename, if any.
Models `filename.rsplit(".", 1)[1]` when a dot is present. -/
def extAfterLastDot : List Char → Option (List Char)
  | [] => none
  | c :: tl =>
    match extAfterLastDot tl with
    | some e => some e
    | none => if c = '.' then some tl else none

/-- Split a character list at its last dot, returning the parts before
and after it, if a dot is present. -/
def splitAtLastDot : List Char → Option (List Char × List Char)
  | [] => none
  | c :: tl =>
    match splitAtLastDot tl with
    | some p => some (c :: p.1, p.2)
    | none => if c = '.' then some ([], tl) else none

/-- Models `os.path.splitext(p)[0]` for a plain filename (no directory
separators): split at the last dot unless every character before that dot
is itself a dot (CPython's leading-dot rule, so `".jpg"` keeps its name). -/
def stemOf (s : String) : String :=
  match splitAtLastDot s.data with
  | none => s
  | some p => if p.1.all (fun c => c = '.') then s else ⟨p.1⟩

/-- Models `app/utils/file_utils.py: allowed_file`: the filename contains a
dot and the lowercased text after the last dot is one of
`png`, `jpg`, `jpeg` (the `ALLOWED_EXTENSIONS` of `config.py`). -/
def allowedFile (s : String) : Bool :=
  match extAfterLastDot s.data with
  | none => false
  | some e =>
    let ext : String := ⟨e.map Char.toLower⟩
    ext = "png" ∨ ext = "jpg" ∨ ext = "jpeg"

/-- Characters kept by werkzeug's `secure_filename` regex
`[^A-Za-z0-9_.-]` (ASCII letters and digits, underscore, dot, dash). -/
def isSecureChar (c : Char) : Bool :=
  c.isAlphanum || c = '_' || c = '.' || c = '-'

/-- Is `c` stripped from the ends by `secure_filename` (`strip("._")`)? -/
def isStripChar (c : Char) : Bool :=
  c = '.' || c = '_'

/-- Strip leading and trailing `.`/`_` characters. -/
def stripDotUnderscore (cs : List Char) : List Char :=
  ((cs.dropWhile isStripChar).reverse.dropWhile isStripChar).reverse

/-- Models werkzeug's `secure_filename` on ASCII input: path separators
become spaces, whitespace-separated words are joined with `_`, characters
outside `[A-Za-z0-9_.-]` are dropped, and leading/trailing `.`/`_` are
stripped.  (Unicode NFKD normalisation and the Windows device-name check
are irrelevant to the claims and not modelled.) -/
def secureFilename (s : String) : String :=
  let replaced := s.data.map (fun c => if c = '/' then ' ' else c)
  let words := (replaced.splitOnP (fun c => c.isWhitespace)).filter (fun w => w ≠ [])
  let joined := (List.intercalate ['_'] words).filter isSecureChar
  ⟨stripDotUnderscore joined⟩

/-! ### Identity store and registry (`app/services/face_service.py`) -/

/-- The persisted image store: filenames paired with their images, in
directory-listing order. -/
abbrev Store := List (String × Img)

/-- Saving a file: overwrite the entry with this filename in place if it
exists, otherwise append it (a new file shows up in the listing). -/
def storeSave : Store → String → Img → Store
  | [], fn, img => [(fn, img)]
  | kv :: tl, fn, img =>
    if kv.1 = fn then (fn, img) :: tl else kv :: storeSave tl fn img

/-- Deleting a file: drop the entries with this filename. -/
def storeRemove (st : Store) (fn : String) : Store :=
  st.filter (fun kv => kv.1 ≠ fn)

/-- The in-memory registry: the parallel lists `known_face_names` /
`known_face_encodings`, kept in lockstep by the source, modelled as one
list of (label, descriptor) pairs in load order. -/
abbrev Registry := List (String × Desc)

/-- One iteration of the `load_known_faces` scan: a file with an allowed
extension and at least one detected face contributes its first face
descriptor under the filename's stem; other files contribute nothing. -/
def loadEntry (kv : String × Img) : Option (String × Desc) :=
  if allowedFile kv.1 then
    match kv.2.faces with
    | [] => none
    | e :: _ => some (stemOf kv.1, e)
  else none

/-- `face_service.load_known_faces`: scan the store in listing order; for
every file with an allowed extension, take the first detected face
descriptor (if any) and register it under the filename's stem.  Files with
no detected face are skipped. -/
def loadKnownFaces (store : Store) : Registry :=
  store.filterMap loadEntry

/-- The store filename under which `register_face`/`delete_face` persist
the label `n`: `secure_filename(n) + ".jpg"`. -/
def keyFromName (n : String) : String :=
  secureFilename n ++ ".jpg"

/-- The mutable state of `face_service.py`: the on-disk store plus the
global `known_face_encodings`/`known_face_names` registry. -/
structure ServiceState where
  store : Store
  registry : Registry
deriving DecidableEq

/-- Outcome of `register_face`, matching its distinct returns. -/
inductive RegisterResult where
  | ok
  | badRequest
  | noFace
deriving DecidableEq

/-- `face_service.register_face file name`: reject missing name or a
disallowed upload filename; otherwise save the upload as
`secure_filename(name) + ".jpg"` (overwriting any existing file of that
name), then detect faces in the saved file; if none are found, delete the
saved file and fail; otherwise rebuild the registry from the store. -/
def registerFace (st : ServiceState) (uploadName : String) (img : Img)
    (name : String) : ServiceState × RegisterResult :=
  if name = "" then (st, RegisterResult.badRequest)
  else if ¬ allowedFile uploadName then (st, RegisterResult.badRequest)
  else
    let fn := keyFromName name
    let store1 := storeSave st.store fn img
    if img.faces = [] then
      ({ st with store := storeRemove store1 fn }, RegisterResult.noFace)
    else
      ({ store := store1, registry := loadKnownFaces store1 }, RegisterResult.ok)

/-- `face_service.delete_face name`: if `secure_filename(name) + ".jpg"`
exists in the store, remove it and rebuild the registry (returns `true`);
otherwise return `false` (HTTP 404). -/
def deleteFace (st : ServiceState) (name : String) : ServiceState × Bool :=
  let fn := keyFromName name
  if st.store.any (fun kv => kv.1 = fn) then
    let store1 := storeRemove st.store fn
    (({ store := store1, registry := loadKnownFaces store1 } : ServiceState), true)
  else (st, false)

/-- Service states reachable from a startup reload over an empty store by
enrollment and deletion calls. -/
inductive Reachable : ServiceState → Prop where
  | start : Reachable ⟨[], loadKnownFaces []⟩
  | reg (st : ServiceState) (u : String) (img : Img) (n : String) :
      Reachable st → Reachable (registerFace st u img n).1
  | del (st : ServiceState) (n : String) :
      Reachable st → Reachable (deleteFace st n).1

/-- All store filenames are of the enrollment shape
`secure_filename(n) + ".jpg"`. -/
def StoreKeysOk (store : Store) : Prop :=
  ∀ kv ∈ store, ∃ n, kv.1 = keyFromName n

/-- Invariant of stores grown from the empty directory by enrollment and
deletion: filenames are pairwise distinct and of the enrollment shape. -/
def StoreInv (store : Store) : Prop :=
  store.Pairwise (fun a b => a.1 ≠ b.1) ∧ StoreKeysOk store

/-- Invariant of reachable service states: the store satisfies `StoreInv`
and the registry labels are pairwise distinct. -/
def RegInv (st : ServiceState) : Prop :=
  StoreInv st.store ∧ st.registry.Pairwise (fun a b => a.1 ≠ b.1)

/-! ### Detection strategy fallback (`recognition_service.py`, lines 49-56) -/

/-- The detection strategies of `FeatureExtractionMethod`
(`feature_extraction.py`): `hog` is the default (`StandardFast`). -/
inductive DetMethod where
  | hog
  | cnn
  | customHog
  | lbp
deriving DecidableEq

/-- A bounding box `(top, right, bottom, left)`. -/
abbrev Box := ℕ × ℕ × ℕ × ℕ

/-- Lines 49-56 of `recognize_faces`: detect with the configured method;
if that yields no boxes and the method is not `hog`, switch the extractor
to `HOG` and detect once more.  The second component records the methods
actually invoked, in order.  `det` stands for the external detector. -/
def detectWithFallback (m : DetMethod) (det : DetMethod → List Box) :
    List Box × List DetMethod :=
  let locs := det m
  if locs = [] ∧ m ≠ DetMethod.hog then (det DetMethod.hog, [m, DetMethod.hog])
  else (locs, [m])

/-! ### CNN classifier (`app/services/cnn.py`) -/

/-- The mutable state of `CNNFaceModel`: the Keras model artifact (opaque,
identified by a number), the label list, and the trained flag. -/
structure CNNState where
  model : Option ℕ
  face_labels : List String
  is_trained : Bool
deriving DecidableEq

/-- Does `filename.lower()` end with `.png`, `.jpg` or `.jpeg`
(the scan filter of `CNNFaceModel.train`)? -/
def isImageFile (fn : String) : Bool :=
  let lo := fn.data.map Char.toLower
  ".png".data.isSuffixOf lo || ".jpg".data.isSuffixOf lo ||
    ".jpeg".data.isSuffixOf lo

/-- The label-scan loop of `CNNFaceModel.train`: walk the folder listing;
for each image file append its stem to the label list if not yet present. -/
def scanLabels (files : List String) : List String :=
  files.foldl
    (fun acc fn =>
      if isImageFile fn ∧ stemOf fn ∉ acc then acc ++ [stemOf fn] else acc)
    []

/-- `CNNFaceModel.train known_faces_folder`: fail at once if the folder
listing is empty; otherwise reset `face_labels` and scan the folder
(also writing augmented copies, which does not touch classifier state);
fail if fewer than 2 labels were found; otherwise build a fresh model and
fit it.  `fit` stands for the external Keras training: `some m` is a model
that fitted successfully, `none` an exception during model build/fit
(caught by the `except` clause, which still leaves the rebuilt
`face_labels` in place and `is_trained`/`model` as the exception left
them — the model is only replaced once `_create_model` returns, which we
fold into `fit`). -/
def cnnTrain (st : CNNState) (files : List String) (fit : Option ℕ) :
    CNNState × Bool :=
  if files = [] then (st, false)
  else
    let labels := scanLabels files
    if labels.length < 2 then ({ st with face_labels := labels }, false)
    else
      match fit with
      | some m =>
        (({ model := some m, face_labels := labels, is_trained := true } :
          CNNState), true)
      | none => ({ st with face_labels := labels }, false)

/-- First index of the maximum of a rational list (the documented
behaviour of `np.argmax`: ties resolve to the first occurrence). -/
def listMaxQ : List ℚ → ℚ
  | [] => 0
  | [x] => x
  | x :: y :: tl => max x (listMaxQ (y :: tl))

/-- First index at which a rational list attains its maximum. -/
def argmaxIdx : List ℚ → ℕ
  | [] => 0
  | [_] => 0
  | x :: y :: tl =>
    if listMaxQ (y :: tl) ≤ x then 0 else argmaxIdx (y :: tl) + 1

/-- `CNNFaceModel.predict face_image`: `(None, 0)` when untrained or
model-less; otherwise run inference (`inferRes`, the external model
output: `none` models an exception anywhere in the `try` block);
`np.argmax` picks the first class of maximal probability, and that
probability is the confidence; at or above threshold `0.6` return the
matching label (an out-of-range label lookup raises and is caught as
`"Erreur"`), below it return `"Inconnu"`. -/
def cnnPredict (st : CNNState) (inferRes : Option (List ℚ)) :
    Option String × ℚ :=
  if st.is_trained = false ∨ st.model = none then (none, 0)
  else
    match inferRes with
    | none => (some "Erreur", 0)
    | some preds =>
      if preds = [] then (some "Erreur", 0)
      else
        let best := argmaxIdx preds
        let conf := preds.getD best 0
        if (3 : ℚ) / 5 ≤ conf then
          match st.face_labels.get? best with
          | some lab => (some lab, conf)
          | none => (some "Erreur", 0)
        else (some "Inconnu", conf)

/-! ### Matcher (`recognition_service.py`, lines 78-106)

Descriptors here are real vectors; `face_recognition.face_distance` is the
external library's documented row-wise Euclidean norm
`np.linalg.norm(known - probe, axis=1)`. -/

/-- The label the matcher reports on rejection: the source's `"Inconnu"`
(French for the spec's `"Unknown"`; §4.6 of the spec glosses the two as
the same token). -/
def unknownLabel : String := "Inconnu"

/-- Euclidean distance between two equal-length real vectors: the
behaviour of the external `face_recognition.face_distance` on one row. -/
noncomputable def euclDist (a b : List ℝ) : ℝ :=
  Real.sqrt (((a.zip b).map (fun p => (p.1 - p.2) ^ 2)).sum)

/-- Minimum of a real list (0 for the empty list, never used there). -/
noncomputable def listMinR : List ℝ → ℝ
  | [] => 0
  | [x] => x
  | x :: y :: tl => min x (listMinR (y :: tl))

/-- First index at which a real list attains its minimum — the documented
behaviour of `np.argmin` (ties resolve to the first occurrence). -/
noncomputable def argminIdx : List ℝ → ℕ
  | [] => 0
  | [_] => 0
  | x :: y :: tl => if x ≤ listMinR (y :: tl) then 0 else argminIdx (y :: tl) + 1

/-- Lines 78-106 of `recognize_faces`, for one detected face: name starts
as `"Inconnu"` with confidence `0.0`; when the registry snapshot is
non-empty, compute the distances to all known faces, pick the
`np.argmin` index, set `confidence = 1 - distance`, and take the matched
name only when the confidence strictly exceeds the threshold. -/
noncomputable def matchFace (snapshot : List (String × List ℝ)) (probe : List ℝ)
    (t : ℝ) : String × ℝ :=
  match snapshot with
  | [] => (unknownLabel, 0)
  | _ :: _ =>
    let ds := snapshot.map (fun kv => euclDist kv.2 probe)
    let best := argminIdx ds
    let conf := 1 - ds.getD best 0
    (if t < conf then (snapshot.getD best ("", [])).1 else unknownLabel, conf)

/-! ### Hand-engineered descriptor normalization
(`feature_extraction.py`, lines 224-231) -/

/-- `np.linalg.norm` of a real vector. -/
noncomputable def l2norm (v : List ℝ) : ℝ :=
  Real.sqrt ((v.map (fun x => x ^ 2)).sum)

/-- Lines 227-229 of `_custom_feature_extraction`: divide the combined
HOG+LBP vector by its norm when the norm is positive, else leave it. -/
noncomputable def normalizeDescriptor (v : List ℝ) : List ℝ :=
  if 0 < l2norm v then v.map (fun x => x / l2norm v) else v

/-! ### LBP features (`feature_extraction.py`, lines 235-272)

The grayscale crop is a pixel function with explicit dimensions (the
`cv2.resize` target is 128×128; the loops read `image.shape`). -/

/-- A grayscale image: height, width, and pixel intensities. -/
structure GrayImage where
  h : ℕ
  w : ℕ
  pix : ℕ → ℕ → ℕ

/-- The LBP code of pixel `(i, j)` as computed by the loop body of
`_extract_lbp_features`: one bit per 8-neighbour comparison
(`neighbour >= center`), OR-ed in with the most significant bit at the
top-left neighbour and proceeding clockwise. -/
def lbpCode (img : GrayImage) (i j : ℕ) : ℕ :=
  let c := img.pix i j
  ((if img.pix (i-1) (j-1) ≥ c then 1 else 0) <<< 7) |||
  ((if img.pix (i-1) j ≥ c then 1 else 0) <<< 6) |||
  ((if img.pix (i-1) (j+1) ≥ c then 1 else 0) <<< 5) |||
  ((if img.pix i (j+1) ≥ c then 1 else 0) <<< 4) |||
  ((if img.pix (i+1) (j+1) ≥ c then 1 else 0) <<< 3) |||
  ((if img.pix (i+1) j ≥ c then 1 else 0) <<< 2) |||
  ((if img.pix (i+1) (j-1) ≥ c then 1 else 0) <<< 1) |||
  ((if img.pix i (j-1) ≥ c then 1 else 0) <<< 0)

/-- The value stored in `lbp_image` at `(i, j)`: the LBP code for the
interior pixels visited by the loops (`range(1, shape-1)`), and the 0
that `np.zeros_like` put there for the 1-pixel border. -/
def lbpValue (img : GrayImage) (i j : ℕ) : ℕ :=
  if 1 ≤ i ∧ i < img.h - 1 ∧ 1 ≤ j ∧ j < img.w - 1 then lbpCode img i j else 0

/-- Bin `b` of `np.histogram(lbp_image.ravel(), bins=256, range=[0,256])`:
the number of pixels of the whole `lbp_image` (border included) whose
value equals `b`.  (The last bin also covers the value 256, which no
`uint8` code can attain.) -/
def lbpHist (img : GrayImage) (b : ℕ) : ℕ :=
  ((List.range img.h).map (fun i =>
    ((List.range img.w).filter (fun j => lbpValue img i j = b)).length)).sum

/-- `hist.sum()`: the total of all 256 bins. -/
def lbpHistSum (img : GrayImage) : ℕ :=
  ((List.range 256).map (fun b => lbpHist img b)).sum

/-- The `1e-7` added to the denominator (`hist /= hist.sum() + 1e-7`). -/
def histEps : ℚ := 1 / 10 ^ 7

/-- Bin `b` of the normalized LBP feature vector returned by
`_extract_lbp_features`. -/
def lbpFeature (img : GrayImage) (b : ℕ) : ℚ :=
  (lbpHist img b : ℚ) / ((lbpHistSum img : ℚ) + histEps)

/-- Modelled from the spec sentence of C6: bin `b` of the 256-bin
histogram of exactly the LBP codes of the interior pixels, the 1-pixel
border excluded. -/
def specLbpHist (img : GrayImage) (b : ℕ) : ℕ :=
  ((List.range' 1 (img.h - 2)).map (fun i =>
    ((List.range' 1 (img.w - 2)).filter (fun j => lbpCode img i j = b)).length)).sum

/-- Modelled from the spec sentence of C6: the total count of the
interior LBP codes. -/
def specLbpTotal (img : GrayImage) : ℕ :=
  ((List.range 256).map (fun b => specLbpHist img b)).sum

/-- Modelled from the spec sentence of C6: the interior-code histogram
normalized by the total count of those codes plus epsilon. -/
def specLbpFeature (img : GrayImage) (b : ℕ) : ℚ :=
  (specLbpHist img b : ℚ) / ((specLbpTotal img : ℚ) + histEps)

/-- A 128×128 crop with every pixel equal to 5. -/
def constImg128 : GrayImage := ⟨128, 128, fun _ _ => 5⟩

/-! ### Helper lemmas: first-argmax characterization -/

theorem listMaxQ_cons_cons (x y : ℚ) (tl : List ℚ) :
    listMaxQ (x :: y :: tl) = max x (listMaxQ (y :: tl)) := rfl

theorem getD_le_listMaxQ (l : List ℚ) :
    ∀ j < l.length, l.getD j 0 ≤ listMaxQ l := by
  induction l with
  | nil => intro j hj; simp at hj
  | cons x xs ih =>
    intro j hj
    cases xs with
    | nil =>
      have hj0 : j = 0 := by simp at hj; omega
      subst hj0
      simp [listMaxQ]
    | cons y tl =>
      rw [listMaxQ_cons_cons]
      cases j with
      | zero => simp
      | succ j =>
        have hj2 : j < (y :: tl).length := by
          simpa using Nat.lt_of_succ_lt_succ hj
        calc (x :: y :: tl).getD (j + 1) 0 = (y :: tl).getD j 0 := by
              simp [List.getD_cons_succ]
          _ ≤ listMaxQ (y :: tl) := ih j hj2
          _ ≤ max x (listMaxQ (y :: tl)) := le_max_right _ _

theorem argmaxIdx_lt_length (l : List ℚ) (hl : l ≠ []) :
    argmaxIdx l < l.length := by
  induction l with
  | nil => simp at hl
  | cons x xs ih =>
    cases xs with
    | nil => simp [argmaxIdx]
    | cons y tl =>
      rw [show argmaxIdx (x :: y :: tl) =
            (if listMaxQ (y :: tl) ≤ x then 0 else argmaxIdx (y :: tl) + 1) from rfl]
      split
      · simp
      · have := ih (by simp)
        simpa using Nat.succ_lt_succ this

theorem getD_argmaxIdx (l : List ℚ) (hl : l ≠ []) :
    l.getD (argmaxIdx l) 0 = listMaxQ l := by
  induction l with
  | nil => simp at hl
  | cons x xs ih =>
    cases xs with
    | nil => simp [argmaxIdx, listMaxQ]
    | cons y tl =>
      rw [listMaxQ_cons_cons,
        show argmaxIdx (x :: y :: tl) =
          (if listMaxQ (y :: tl) ≤ x then 0 else argmaxIdx (y :: tl) + 1) from rfl]
      split
      · rename_i h
        simp [max_eq_left h]
      · rename_i h
        have hx : x ≤ listMaxQ (y :: tl) := le_of_not_le h
        rw [max_eq_right hx]
        simpa [List.getD_cons_succ] using ih (by simp)

theorem getD_lt_of_lt_argmaxIdx (l : List ℚ) :
    ∀ j < argmaxIdx l, l.getD j 0 < listMaxQ l := by
  induction l with
  | nil => intro j hj; simp [argmaxIdx] at hj
  | cons x xs ih =>
    intro j hj
    cases xs with
    | nil => simp [argmaxIdx] at hj
    | cons y tl =>
      rw [show argmaxIdx (x :: y :: tl) =
            (if listMaxQ (y :: tl) ≤ x then 0 else argmaxIdx (y :: tl) + 1) from rfl]
        at hj
      rw [listMaxQ_cons_cons]
      split at hj
      · omega
      · rename_i h
        have hx : x < listMaxQ (y :: tl) := lt_of_not_le h
        rw [max_eq_right (le_of_lt hx)]
        cases j with
        | zero => simpa using hx
        | succ j =>
          have hj2 : j < argmaxIdx (y :: tl) := Nat.lt_of_succ_lt_succ hj
          simpa [List.getD_cons_succ] using ih j hj2

/-! ### Claim theorems: C9, C8, C3, C2 -/

/-- C9: for a recognition request configured with a non-default detection
strategy, if that strategy returns zero boxes the caller retries detection
exactly once with the HOG (`StandardFast`) strategy before reporting no
face detected; if the configured strategy returns at least one box, or it
is already HOG, no retry occurs (the attempt list is the single configured
strategy). -/
theorem detectWithFallback_retry_spec (m : DetMethod) (det : DetMethod → List Box) :
    (m ≠ DetMethod.hog → det m = [] →
      detectWithFallback m det = (det DetMethod.hog, [m, DetMethod.hog])) ∧
    (det m ≠ [] → detectWithFallback m det = (det m, [m])) ∧
    detectWithFallback DetMethod.hog det =
      (det DetMethod.hog, [DetMethod.hog]) := by
  refine ⟨?_, ?_, ?_⟩
  · intro hm hz
    simp [detectWithFallback, hz, hm]
  · intro hz
    simp [detectWithFallback, hz]
  · simp [detectWithFallback]

/-- C9 witness: with the LBP cascade configured and a detector that finds
nothing under LBP but one box under HOG, the call retries exactly once
with HOG; a detector that finds a box under LBP is not retried. -/
theorem detectWithFallback_retry_witness :
    (DetMethod.lbp ≠ DetMethod.hog ∧
      (fun m => if m = DetMethod.hog then [((0, 1, 1, 0) : Box)] else [])
          DetMethod.lbp = [] ∧
      detectWithFallback DetMethod.lbp
          (fun m => if m = DetMethod.hog then [((0, 1, 1, 0) : Box)] else []) =
        ([((0, 1, 1, 0) : Box)], [DetMethod.lbp, DetMethod.hog])) ∧
    ((fun _ => [((2, 3, 4, 1) : Box)]) DetMethod.lbp ≠ [] ∧
      detectWithFallback DetMethod.lbp (fun _ => [((2, 3, 4, 1) : Box)]) =
        ([((2, 3, 4, 1) : Box)], [DetMethod.lbp])) :=
  ⟨⟨by decide, by decide,
    (detectWithFallback_retry_spec DetMethod.lbp
      (fun m => if m = DetMethod.hog then [((0, 1, 1, 0) : Box)] else [])).1
      (by decide) (by decide)⟩,
   ⟨by decide,
    (detectWithFallback_retry_spec DetMethod.lbp
      (fun _ => [((2, 3, 4, 1) : Box)])).2.1 (by decide)⟩⟩

/-- C8: classifier predict returns `(None, 0)` when the state is not
trained; otherwise the confidence is the output probability of the first
class of maximal probability (`np.argmax`), and predict returns the
matching label when the confidence is at least `0.6`, `"Inconnu"` below
`0.6`, and `"Erreur"` with confidence `0` on any internal inference
failure (a raised exception, an empty output, or an out-of-range label
index) instead of propagating. -/
theorem cnnPredict_spec (st : CNNState) (inferRes : Option (List ℚ)) :
    (st.is_trained = false ∨ st.model = none →
      cnnPredict st inferRes = (none, 0)) ∧
    (st.is_trained = true → st.model ≠ none → inferRes = none →
      cnnPredict st inferRes = (some "Erreur", 0)) ∧
    (∀ preds, st.is_trained = true → st.model ≠ none →
      inferRes = some preds → preds ≠ [] →
      (∀ j < preds.length,
          preds.getD j 0 ≤ preds.getD (argmaxIdx preds) 0) ∧
      (∀ j < argmaxIdx preds,
          preds.getD j 0 < preds.getD (argmaxIdx preds) 0) ∧
      ((3 : ℚ) / 5 ≤ preds.getD (argmaxIdx preds) 0 →
        ∀ lab, st.face_labels.get? (argmaxIdx preds) = some lab →
          cnnPredict st inferRes = (some lab, preds.getD (argmaxIdx preds) 0)) ∧
      ((3 : ℚ) / 5 ≤ preds.getD (argmaxIdx preds) 0 →
        st.face_labels.get? (argmaxIdx preds) = none →
          cnnPredict st inferRes = (some "Erreur", 0)) ∧
      (preds.getD (argmaxIdx preds) 0 < (3 : ℚ) / 5 →
        cnnPredict st inferRes =
          (some "Inconnu", preds.getD (argmaxIdx preds) 0))) := by
  refine ⟨?_, ?_, ?_⟩
  · intro h
    rcases h with h | h <;> simp [cnnPredict, h]
  · intro ht hm hi
    simp [cnnPredict, ht, hm, hi]
  · intro preds ht hm hi hne
    refine ⟨?_, ?_, ?_, ?_, ?_⟩
    · intro j hj
      rw [getD_argmaxIdx preds hne]
      exact getD_le_listMaxQ preds j hj
    · intro j hj
      rw [getD_argmaxIdx preds hne]
      exact getD_lt_of_lt_argmaxIdx preds j hj
    · intro hconf lab hlab
      rw [List.getD_eq_getElem?_getD] at hconf
      rw [List.get?_eq_getElem?] at hlab
      simp [cnnPredict, ht, hm, hi, hne, hconf, hlab]
    · intro hconf hlab
      rw [List.getD_eq_getElem?_getD] at hconf
      rw [List.get?_eq_getElem?] at hlab
      simp [cnnPredict, ht, hm, hi, hne, hconf, hlab]
    · intro hconf
      rw [List.getD_eq_getElem?_getD] at hconf
      simp [cnnPredict, ht, hm, hi, hne, not_le.mpr hconf]

/-- C8 witness: a trained two-person model whose inference gives
probabilities `[1/4, 3/4]` answers `("bob", 3/4)`, and an untrained model
answers `(none, 0)`. -/
theorem cnnPredict_spec_witness :
    ((3 : ℚ) / 5 ≤ [(1 : ℚ) / 4, 3 / 4].getD (argmaxIdx [(1 : ℚ) / 4, 3 / 4]) 0 ∧
      cnnPredict ⟨some 1, ["alice", "bob"], true⟩ (some [(1 : ℚ) / 4, 3 / 4]) =
        (some "bob", [(1 : ℚ) / 4, 3 / 4].getD (argmaxIdx [(1 : ℚ) / 4, 3 / 4]) 0)) ∧
    cnnPredict ⟨none, [], false⟩ (some [(1 : ℚ) / 4, 3 / 4]) = (none, 0) :=
  ⟨⟨by norm_num [argmaxIdx, listMaxQ],
    ((cnnPredict_spec ⟨some 1, ["alice", "bob"], true⟩
        (some [(1 : ℚ) / 4, 3 / 4])).2.2 [(1 : ℚ) / 4, 3 / 4] rfl (by simp) rfl
        (by simp)).2.2.1 (by norm_num [argmaxIdx, listMaxQ]) "bob"
        (by norm_num [argmaxIdx, listMaxQ])⟩,
   (cnnPredict_spec ⟨none, [], false⟩ (some [(1 : ℚ) / 4, 3 / 4])).1
     (Or.inl rfl)⟩

/-- C3 counterexample: a classifier trained on `["alice", "bob"]`
(`is_trained = true`, a persisted artifact) retrained over a folder
holding the single image `carl.jpg` (one distinct label, so fewer than 2)
does fail, but its label list after the call is `["carl"]`, not the
`["alice", "bob"]` it held before — the call does not leave the label
list unchanged. -/
theorem cnnTrain_clobbers_labels :
    (scanLabels ["carl.jpg"]).length < 2 ∧
    (cnnTrain ⟨some 7, ["alice", "bob"], true⟩ ["carl.jpg"] (some 9)).2 = false ∧
    (cnnTrain ⟨some 7, ["alice", "bob"], true⟩ ["carl.jpg"] (some 9)).1.face_labels =
      ["carl"] ∧
    (cnnTrain ⟨some 7, ["alice", "bob"], true⟩ ["carl.jpg"] (some 9)).1.face_labels ≠
      (⟨some 7, ["alice", "bob"], true⟩ : CNNState).face_labels := by
  refine ⟨by decide, by decide, by decide, by decide⟩

/-- C3 amended: a `train` call that finds fewer than 2 distinct labels
fails and leaves the model artifact and the trained/untrained status
unchanged, but it does not leave the label list unchanged: unless the
folder listing is empty (in which case the whole state is untouched), the
label list is overwritten with the labels scanned from the folder. -/
theorem cnnTrain_insufficient_labels (st : CNNState) (files : List String)
    (fit : Option ℕ) (h : (scanLabels files).length < 2) :
    cnnTrain st files fit =
      ((if files = [] then st else { st with face_labels := scanLabels files }),
        false) := by
  unfold cnnTrain
  split
  · rename_i hf
    simp [hf]
  · rename_i hf
    simp [hf, if_pos h]

/-- C3 amended, witness: the trained `["alice", "bob"]` classifier
retrained over `["carl.jpg"]` fails with the artifact and trained flag
intact and the label list rewritten to `["carl"]`. -/
theorem cnnTrain_insufficient_labels_witness :
    (scanLabels ["carl.jpg"]).length < 2 ∧
    cnnTrain ⟨some 7, ["alice", "bob"], true⟩ ["carl.jpg"] (some 9) =
      ((if (["carl.jpg"] : List String) = [] then
          (⟨some 7, ["alice", "bob"], true⟩ : CNNState)
        else { (⟨some 7, ["alice", "bob"], true⟩ : CNNState) with
                face_labels := scanLabels ["carl.jpg"] }), false) :=
  ⟨by decide,
   cnnTrain_insufficient_labels ⟨some 7, ["alice", "bob"], true⟩ ["carl.jpg"]
     (some 9) (by decide)⟩

/-- Removing the just-saved filename removes exactly the store entries
with that filename: the save is cancelled and any previous file of that
name is gone too. -/
theorem storeRemove_storeSave (s : Store) (fn : String) (img : Img) :
    storeRemove (storeSave s fn img) fn = storeRemove s fn := by
  induction s with
  | nil => simp [storeSave, storeRemove]
  | cons kv tl ih =>
    by_cases h : kv.1 = fn
    · simp_all [storeSave, storeRemove, h]
    · simp_all [storeSave, storeRemove, h]

/-- C2 counterexample: with `bob.jpg` already persisted (and `bob`
registered), enrolling `bob` again with an image in which no face is
detected fails as claimed, but the store is not left as it was: the call
first overwrites `bob.jpg` with the new image and then deletes it, so the
previously persisted image for `bob` is destroyed (the registry keeps its
now-dangling `bob` entry). -/
theorem registerFace_noFace_cex :
    (registerFace ⟨[("bob.jpg", ⟨[[1]]⟩)], [("bob", [1])]⟩ "x.jpg" ⟨[]⟩ "bob").2 =
      RegisterResult.noFace ∧
    (registerFace ⟨[("bob.jpg", ⟨[[1]]⟩)], [("bob", [1])]⟩ "x.jpg" ⟨[]⟩ "bob").1.store =
      [] ∧
    (registerFace ⟨[("bob.jpg", ⟨[[1]]⟩)], [("bob", [1])]⟩ "x.jpg" ⟨[]⟩ "bob").1.store ≠
      (⟨[("bob.jpg", ⟨[[1]]⟩)], [("bob", [1])]⟩ : ServiceState).store := by
  refine ⟨by decide, by decide, by decide⟩

/-- C2 amended: if enrollment of a label fails because zero faces are
detected, the whole call fails, the submitted image is not persisted
(it is saved and then deleted), and the in-memory registry is unchanged;
but the identity store is not left as it was before the call: the stored
file for that label, if one existed, was overwritten by the upload and is
then deleted, so the final store is the original store minus any entry for
that label (the label's stale registry entry survives until the next
reload). -/
theorem registerFace_noFace_amended (st : ServiceState) (u : String) (img : Img)
    (n : String) (hn : n ≠ "") (hu : allowedFile u = true)
    (hf : img.faces = []) :
    registerFace st u img n =
      ({ st with store := storeRemove st.store (keyFromName n) },
        RegisterResult.noFace) := by
  unfold registerFace
  rw [if_neg hn, if_neg (by simp [hu]), if_pos hf, storeRemove_storeSave]

/-- C2 amended, witness: enrolling `bob` with a face-less image over a
store already holding `bob.jpg` fails and leaves the store equal to the
original minus `bob.jpg`, with the registry untouched. -/
theorem registerFace_noFace_amended_witness :
    ("bob" ≠ "" ∧ allowedFile "x.jpg" = true ∧ (Img.mk []).faces = []) ∧
    registerFace ⟨[("bob.jpg", ⟨[[1]]⟩)], [("bob", [1])]⟩ "x.jpg" ⟨[]⟩ "bob" =
      ({ (⟨[("bob.jpg", ⟨[[1]]⟩)], [("bob", [1])]⟩ : ServiceState) with
          store := storeRemove [("bob.jpg", ⟨[[1]]⟩)] (keyFromName "bob") },
        RegisterResult.noFace) :=
  ⟨⟨by decide, by decide, rfl⟩,
   registerFace_noFace_amended ⟨[("bob.jpg", ⟨[[1]]⟩)], [("bob", [1])]⟩ "x.jpg"
     ⟨[]⟩ "bob" (by decide) (by decide) rfl⟩

/-! ### Helper lemmas: first-argmin characterization (real lists) -/

theorem listMinR_cons_cons (x y : ℝ) (tl : List ℝ) :
    listMinR (x :: y :: tl) = min x (listMinR (y :: tl)) := rfl

theorem listMinR_le_getD (l : List ℝ) :
    ∀ j < l.length, listMinR l ≤ l.getD j 0 := by
  induction l with
  | nil => intro j hj; simp at hj
  | cons x xs ih =>
    intro j hj
    cases xs with
    | nil =>
      have hj0 : j = 0 := by simp at hj; omega
      subst hj0
      simp [listMinR]
    | cons y tl =>
      rw [listMinR_cons_cons]
      cases j with
      | zero => simp
      | succ j =>
        have hj2 : j < (y :: tl).length := by
          simpa using Nat.lt_of_succ_lt_succ hj
        calc min x (listMinR (y :: tl)) ≤ listMinR (y :: tl) :=
              min_le_right _ _
          _ ≤ (y :: tl).getD j 0 := ih j hj2
          _ = (x :: y :: tl).getD (j + 1) 0 := by simp [List.getD_cons_succ]

theorem argminIdx_lt_length (l : List ℝ) (hl : l ≠ []) :
    argminIdx l < l.length := by
  induction l with
  | nil => simp at hl
  | cons x xs ih =>
    cases xs with
    | nil => simp [argminIdx]
    | cons y tl =>
      rw [show argminIdx (x :: y :: tl) =
            (if x ≤ listMinR (y :: tl) then 0 else argminIdx (y :: tl) + 1) from rfl]
      split
      · simp
      · have := ih (by simp)
        simpa using Nat.succ_lt_succ this

theorem getD_argminIdx (l : List ℝ) (hl : l ≠ []) :
    l.getD (argminIdx l) 0 = listMinR l := by
  induction l with
  | nil => simp at hl
  | cons x xs ih =>
    cases xs with
    | nil => simp [argminIdx, listMinR]
    | cons y tl =>
      rw [listMinR_cons_cons,
        show argminIdx (x :: y :: tl) =
          (if x ≤ listMinR (y :: tl) then 0 else argminIdx (y :: tl) + 1) from rfl]
      split
      · rename_i h
        simp [min_eq_left h]
      · rename_i h
        have hx : listMinR (y :: tl) ≤ x := le_of_not_le h
        rw [min_eq_right hx]
        simpa [List.getD_cons_succ] using ih (by simp)

theorem getD_gt_of_lt_argminIdx (l : List ℝ) :
    ∀ j < argminIdx l, listMinR l < l.getD j 0 := by
  induction l with
  | nil => intro j hj; simp [argminIdx] at hj
  | cons x xs ih =>
    intro j hj
    cases xs with
    | nil => simp [argminIdx] at hj
    | cons y tl =>
      rw [show argminIdx (x :: y :: tl) =
            (if x ≤ listMinR (y :: tl) then 0 else argminIdx (y :: tl) + 1) from rfl]
        at hj
      rw [listMinR_cons_cons]
      split at hj
      · omega
      · rename_i h
        have hx : listMinR (y :: tl) < x := lt_of_not_le h
        rw [min_eq_right (le_of_lt hx)]
        cases j with
        | zero => simpa using hx
        | succ j =>
          have hj2 : j < argminIdx (y :: tl) := Nat.lt_of_succ_lt_succ hj
          simpa [List.getD_cons_succ] using ih j hj2

theorem getD_map_of_lt {α β : Type} (f : α → β) (l : List α) (j : ℕ)
    (hj : j < l.length) (d : α) (d2 : β) :
    (l.map f).getD j d2 = f (l.getD j d) := by
  rw [List.getD_eq_getElem?_getD, List.getD_eq_getElem?_getD,
    List.getElem?_map, List.getElem?_eq_getElem hj]
  simp

theorem matchFace_cons (kv : String × List ℝ) (tl : List (String × List ℝ))
    (p : List ℝ) (t : ℝ) :
    matchFace (kv :: tl) p t =
      ((if t < 1 - ((kv :: tl).map (fun kv => euclDist kv.2 p)).getD
            (argminIdx ((kv :: tl).map (fun kv => euclDist kv.2 p))) 0
        then ((kv :: tl).getD
            (argminIdx ((kv :: tl).map (fun kv => euclDist kv.2 p))) ("", [])).1
        else unknownLabel),
       1 - ((kv :: tl).map (fun kv => euclDist kv.2 p)).getD
            (argminIdx ((kv :: tl).map (fun kv => euclDist kv.2 p))) 0) := rfl

/-! ### Claim theorems: C1, C4, C7 -/

/-- C1: for every non-empty registry snapshot, probe and threshold, the
matcher selects the identity at minimum Euclidean distance from the probe
(first occurrence in snapshot order on ties), reports
`confidence = 1 - that distance` (possibly negative, not re-normalized),
and returns that identity's label exactly when the confidence strictly
exceeds the threshold, returning the unknown label (`"Inconnu"`, the
spec's `"Unknown"`) otherwise, while still reporting the confidence. -/
theorem matchFace_selects_min (s : List (String × List ℝ)) (hs : s ≠ [])
    (p : List ℝ) (t : ℝ) :
    ∃ i, i < s.length ∧
      (∀ j < s.length,
        euclDist (s.getD i ("", [])).2 p ≤ euclDist (s.getD j ("", [])).2 p) ∧
      (∀ j < i,
        euclDist (s.getD i ("", [])).2 p < euclDist (s.getD j ("", [])).2 p) ∧
      matchFace s p t =
        (if t < 1 - euclDist (s.getD i ("", [])).2 p then (s.getD i ("", [])).1
          else unknownLabel,
         1 - euclDist (s.getD i ("", [])).2 p) := by
  cases s with
  | nil => exact absurd rfl hs
  | cons kv tl =>
    have hdsne : (kv :: tl).map (fun kv => euclDist kv.2 p) ≠ [] := by simp
    have hlen : ((kv :: tl).map (fun kv => euclDist kv.2 p)).length =
        (kv :: tl).length := by simp
    have hilt : argminIdx ((kv :: tl).map (fun kv => euclDist kv.2 p)) <
        (kv :: tl).length := by
      rw [← hlen]; exact argminIdx_lt_length _ hdsne
    have hget : ∀ j < (kv :: tl).length,
        ((kv :: tl).map (fun kv => euclDist kv.2 p)).getD j 0 =
          euclDist ((kv :: tl).getD j ("", [])).2 p := by
      intro j hj
      have h := getD_map_of_lt (fun kv => euclDist kv.2 p) (kv :: tl) j hj ("", []) 0
      simpa using h
    refine ⟨_, hilt, ?_, ?_, ?_⟩
    · intro j hj
      rw [← hget _ hj, ← hget _ hilt, getD_argminIdx _ hdsne]
      exact listMinR_le_getD _ j (by rwa [hlen])
    · intro j hj
      have hjlen : j < (kv :: tl).length := lt_trans hj hilt
      rw [← hget _ hjlen, ← hget _ hilt, getD_argminIdx _ hdsne]
      exact getD_gt_of_lt_argminIdx _ j hj
    · rw [matchFace_cons, hget _ hilt]

/-- C1 witness: snapshot `[alice ↦ [0], bob ↦ [2]]`, probe `[0]`,
threshold `3/5`: there is a minimising index with the stated properties. -/
theorem matchFace_selects_min_witness :
    ([(("alice", [0]) : String × List ℝ), ("bob", [2])] ≠ []) ∧
    (∃ i, i < [(("alice", [0]) : String × List ℝ), ("bob", [2])].length ∧
      (∀ j < [(("alice", [0]) : String × List ℝ), ("bob", [2])].length,
        euclDist ([(("alice", [0]) : String × List ℝ), ("bob", [2])].getD i ("", [])).2
            [0] ≤
          euclDist ([(("alice", [0]) : String × List ℝ), ("bob", [2])].getD j ("", [])).2
            [0]) ∧
      (∀ j < i,
        euclDist ([(("alice", [0]) : String × List ℝ), ("bob", [2])].getD i ("", [])).2
            [0] <
          euclDist ([(("alice", [0]) : String × List ℝ), ("bob", [2])].getD j ("", [])).2
            [0]) ∧
      matchFace [(("alice", [0]) : String × List ℝ), ("bob", [2])] [0] ((3 : ℝ) / 5) =
        (if (3 : ℝ) / 5 <
            1 - euclDist
              ([(("alice", [0]) : String × List ℝ), ("bob", [2])].getD i ("", [])).2 [0]
          then ([(("alice", [0]) : String × List ℝ), ("bob", [2])].getD i ("", [])).1
          else unknownLabel,
         1 - euclDist
           ([(("alice", [0]) : String × List ℝ), ("bob", [2])].getD i ("", [])).2 [0])) :=
  ⟨by simp,
   matchFace_selects_min [(("alice", [0]) : String × List ℝ), ("bob", [2])]
     (by simp) [0] ((3 : ℝ) / 5)⟩

/-- C4: matching any probe against an empty registry snapshot returns the
pair `(unknown label, 0.0)` — the source's `("Inconnu", 0.0)`, which the
spec renders `("Unknown", 0.0)` — without error. -/
theorem matchFace_empty (p : List ℝ) (t : ℝ) :
    matchFace [] p t = (unknownLabel, 0) := rfl

/-- A list of squares has a non-negative sum. -/
theorem sum_sq_nonneg (v : List ℝ) : 0 ≤ (v.map (fun x => x ^ 2)).sum := by
  apply List.sum_nonneg
  intro x hx
  obtain ⟨y, _, rfl⟩ := List.mem_map.mp hx
  exact sq_nonneg y

/-- A list with a nonzero entry has a positive sum of squares. -/
theorem sum_sq_pos (v : List ℝ) (x : ℝ) (hx : x ∈ v) (hxe : x ≠ 0) :
    0 < (v.map (fun y => y ^ 2)).sum := by
  have hx2 : (0 : ℝ) < x ^ 2 :=
    lt_of_le_of_ne (sq_nonneg x) (Ne.symm (pow_ne_zero 2 hxe))
  have hmem : x ^ 2 ∈ v.map (fun y => y ^ 2) := List.mem_map.mpr ⟨x, hx, rfl⟩
  have hle : x ^ 2 ≤ (v.map (fun y => y ^ 2)).sum := by
    apply List.single_le_sum _ _ hmem
    intro y hy
    obtain ⟨z, _, rfl⟩ := List.mem_map.mp hy
    exact sq_nonneg z
  linarith

/-- Pulling a constant factor out of a sum of squares. -/
theorem sum_map_mul_const (v : List ℝ) (c : ℝ) :
    (v.map (fun y => y ^ 2 * c)).sum = (v.map (fun y => y ^ 2)).sum * c := by
  induction v with
  | nil => simp
  | cons a tl ih =>
    simp [ih]
    ring

/-- C7: the hand-engineered descriptor (HOG histogram concatenated with
LBP histogram) has L2 norm exactly 1 after normalization whenever the
concatenated vector is nonzero; when the concatenation is the zero
vector, the descriptor is that zero vector itself. -/
theorem normalizeDescriptor_norm (hog lbp : List ℝ) :
    ((∃ x ∈ hog ++ lbp, x ≠ 0) →
      l2norm (normalizeDescriptor (hog ++ lbp)) = 1) ∧
    ((∀ x ∈ hog ++ lbp, x = 0) →
      normalizeDescriptor (hog ++ lbp) = hog ++ lbp) := by
  constructor
  · rintro ⟨x, hx, hxe⟩
    have hSpos : 0 < ((hog ++ lbp).map (fun y => y ^ 2)).sum :=
      sum_sq_pos _ x hx hxe
    have hnpos : 0 < l2norm (hog ++ lbp) := Real.sqrt_pos.mpr hSpos
    unfold normalizeDescriptor
    rw [if_pos hnpos]
    have hmap2 : ((hog ++ lbp).map (fun y => y / l2norm (hog ++ lbp))).map
          (fun y => y ^ 2) =
        (hog ++ lbp).map (fun y => y ^ 2 * (l2norm (hog ++ lbp) ^ 2)⁻¹) := by
      rw [List.map_map]
      apply List.map_congr_left
      intro y hy
      show (y / l2norm (hog ++ lbp)) ^ 2 = y ^ 2 * (l2norm (hog ++ lbp) ^ 2)⁻¹
      rw [div_pow, div_eq_mul_inv]
    have hsq : l2norm (hog ++ lbp) ^ 2 = ((hog ++ lbp).map (fun y => y ^ 2)).sum :=
      Real.sq_sqrt (le_of_lt hSpos)
    show Real.sqrt ((((hog ++ lbp).map (fun y => y / l2norm (hog ++ lbp))).map
      (fun y => y ^ 2)).sum) = 1
    rw [hmap2, sum_map_mul_const, hsq, mul_inv_cancel₀ (ne_of_gt hSpos),
      Real.sqrt_one]
  · intro hz
    have hmap0 : (hog ++ lbp).map (fun y => y ^ 2) =
        (hog ++ lbp).map (fun _ => (0 : ℝ)) := by
      apply List.map_congr_left
      intro y hy
      rw [hz y hy]
      simp
    have hS0 : ((hog ++ lbp).map (fun y => y ^ 2)).sum = 0 := by
      rw [hmap0]
      simp
    have hn0 : l2norm (hog ++ lbp) = 0 := by
      show Real.sqrt (((hog ++ lbp).map (fun y => y ^ 2)).sum) = 0
      rw [hS0, Real.sqrt_zero]
    unfold normalizeDescriptor
    rw [if_neg (by rw [hn0]; exact lt_irrefl 0)]

/-- C7 witness: `[1] ++ [0]` normalizes to a unit vector, and the all-zero
concatenation `[0] ++ [0]` is returned unchanged. -/
theorem normalizeDescriptor_norm_witness :
    ((∃ x ∈ [(1 : ℝ)] ++ [0], x ≠ 0) ∧
      l2norm (normalizeDescriptor ([(1 : ℝ)] ++ [0])) = 1) ∧
    ((∀ x ∈ [(0 : ℝ)] ++ [0], x = 0) ∧
      normalizeDescriptor ([(0 : ℝ)] ++ [0]) = [(0 : ℝ)] ++ [0]) :=
  ⟨⟨⟨1, by simp, one_ne_zero⟩,
    (normalizeDescriptor_norm [(1 : ℝ)] [0]).1 ⟨1, by simp, one_ne_zero⟩⟩,
   ⟨by simp,
    (normalizeDescriptor_norm [(0 : ℝ)] [0]).2 (by simp)⟩⟩

/-! ### String lemmas for store keys built by `secure_filename(n) + ".jpg"` -/

theorem dropWhile_head_false {α : Type} (p : α → Bool) (l : List α) :
    ∀ c tl, l.dropWhile p = c :: tl → p c = false := by
  induction l with
  | nil => intro c tl h; simp [List.dropWhile] at h
  | cons a l ih =>
    intro c tl h
    rw [List.dropWhile_cons] at h
    by_cases hp : p a = true
    · rw [if_pos hp] at h
      exact ih c tl h
    · rw [if_neg hp] at h
      cases h
      simpa using hp

theorem strip_head (cs : List Char) :
    stripDotUnderscore cs = [] ∨
    ∃ c tl, stripDotUnderscore cs = c :: tl ∧ isStripChar c = false := by
  unfold stripDotUnderscore
  rcases hm : cs.dropWhile isStripChar with _ | ⟨c, mtl⟩
  · left; simp
  · have hc : isStripChar c = false := dropWhile_head_false isStripChar cs c mtl hm
    rcases hw : (c :: mtl).reverse.dropWhile isStripChar with _ | ⟨w, wtl⟩
    · left; simp [hw]
    · right
      have hsuf : (w :: wtl) <:+ (c :: mtl).reverse := by
        rw [← hw]; exact List.dropWhile_suffix isStripChar
      obtain ⟨t, ht⟩ := hsuf
      have hlast : (w :: wtl).getLast? = some c := by
        have h1 : (t ++ (w :: wtl)).getLast? = (w :: wtl).getLast? :=
          List.getLast?_append_of_ne_nil t (by simp)
        have h2 : ((c :: mtl).reverse).getLast? = some c := by
          rw [List.getLast?_reverse]
          rfl
        rw [ht, h2] at h1
        exact h1.symm
      have hhead : (w :: wtl).reverse.head? = some c := by
        rw [List.head?_reverse]
        exact hlast
      refine ⟨c, (w :: wtl).reverse.tail, ?_, hc⟩
      exact (List.cons_head?_tail (by rw [hhead]; rfl)).symm

theorem secureFilename_shape (n : String) :
    secureFilename n = "" ∨
    ∃ c tl, (secureFilename n).data = c :: tl ∧ isStripChar c = false := by
  obtain ⟨cs, hcs⟩ : ∃ cs, (secureFilename n).data = stripDotUnderscore cs :=
    ⟨_, rfl⟩
  rcases strip_head cs with h | ⟨c, tl, h, hc⟩
  · left
    apply String.ext
    rw [hcs, h]
  · right
    exact ⟨c, tl, by rw [hcs, h], hc⟩

theorem splitAtLastDot_of_no_dot (zs : List Char) (h : ∀ c ∈ zs, c ≠ '.') :
    splitAtLastDot zs = none := by
  induction zs with
  | nil => rfl
  | cons c tl ih =>
    rw [splitAtLastDot]
    rw [ih (fun x hx => h x (List.mem_cons_of_mem c hx))]
    simp [h c (List.mem_cons_self c tl)]

theorem splitAtLastDot_append (xs zs : List Char) (h : ∀ c ∈ zs, c ≠ '.') :
    splitAtLastDot (xs ++ '.' :: zs) = some (xs, zs) := by
  induction xs with
  | nil =>
    rw [List.nil_append, splitAtLastDot, splitAtLastDot_of_no_dot zs h]
    rfl
  | cons x xtl ih =>
    rw [List.cons_append, splitAtLastDot, ih]

theorem extAfterLastDot_of_no_dot (zs : List Char) (h : ∀ c ∈ zs, c ≠ '.') :
    extAfterLastDot zs = none := by
  induction zs with
  | nil => rfl
  | cons c tl ih =>
    rw [extAfterLastDot]
    rw [ih (fun x hx => h x (List.mem_cons_of_mem c hx))]
    simp [h c (List.mem_cons_self c tl)]

theorem extAfterLastDot_append (xs zs : List Char) (h : ∀ c ∈ zs, c ≠ '.') :
    extAfterLastDot (xs ++ '.' :: zs) = some zs := by
  induction xs with
  | nil =>
    rw [List.nil_append, extAfterLastDot, extAfterLastDot_of_no_dot zs h]
    rfl
  | cons x xtl ih =>
    rw [List.cons_append, extAfterLastDot, ih]

theorem keyFromName_data (n : String) :
    (keyFromName n).data = (secureFilename n).data ++ '.' :: ['j', 'p', 'g'] := by
  show (secureFilename n ++ ".jpg").data = _
  rw [String.data_append]

theorem allowedFile_keyFromName (n : String) :
    allowedFile (keyFromName n) = true := by
  unfold allowedFile
  rw [keyFromName_data, extAfterLastDot_append _ _ (by decide)]
  decide

theorem stemOf_keyFromName (n : String) :
    stemOf (keyFromName n) =
      if secureFilename n = "" then keyFromName n else secureFilename n := by
  unfold stemOf
  rw [keyFromName_data, splitAtLastDot_append _ _ (by decide)]
  rcases secureFilename_shape n with h | ⟨c, tl, h, hc⟩
  · rw [if_pos h, h]
    rfl
  · have hne : secureFilename n ≠ "" := by
      intro he
      rw [he] at h
      simp at h
    have hcdot : c ≠ '.' := by
      intro he
      rw [he] at hc
      simp [isStripChar] at hc
    have hall : (c :: tl).all (fun c => c = '.') = false := by
      simp [List.all_cons, hcdot]
    rw [if_neg hne, h]
    show (if (c :: tl).all (fun c => c = '.') then keyFromName n else ⟨c :: tl⟩) =
      secureFilename n
    rw [hall]
    show (⟨c :: tl⟩ : String) = secureFilename n
    exact String.ext h.symm

theorem keyFromName_congr (n1 n2 : String)
    (h : secureFilename n1 = secureFilename n2) :
    keyFromName n1 = keyFromName n2 := by
  unfold keyFromName
  rw [h]

theorem stemOf_keyFromName_inj (n1 n2 : String)
    (h : keyFromName n1 ≠ keyFromName n2) :
    stemOf (keyFromName n1) ≠ stemOf (keyFromName n2) := by
  have hsf : secureFilename n1 ≠ secureFilename n2 := by
    intro he
    exact h (keyFromName_congr n1 n2 he)
  rw [stemOf_keyFromName, stemOf_keyFromName]
  by_cases h1 : secureFilename n1 = ""
  · by_cases h2 : secureFilename n2 = ""
    · exact absurd (h1.trans h2.symm) hsf
    · rw [if_pos h1, if_neg h2]
      intro he
      rcases secureFilename_shape n2 with h2e | ⟨c, tl, hd, hc⟩
      · exact h2 h2e
      · have : (keyFromName n1).data = (secureFilename n2).data := by rw [he]
        rw [keyFromName_data, h1, hd] at this
        have hh : '.' = c := by
          have : ('.' :: ['j', 'p', 'g'] : List Char) = c :: tl := by
            simpa using this
          exact (List.cons.injEq _ _ _ _ ▸ this).1
        rw [← hh] at hc
        simp [isStripChar] at hc
  · by_cases h2 : secureFilename n2 = ""
    · rw [if_neg h1, if_pos h2]
      intro he
      rcases secureFilename_shape n1 with h1e | ⟨c, tl, hd, hc⟩
      · exact h1 h1e
      · have : (secureFilename n1).data = (keyFromName n2).data := by rw [he]
        rw [keyFromName_data, h2, hd] at this
        have hh : c = '.' := by
          have : (c :: tl : List Char) = '.' :: ['j', 'p', 'g'] := by
            simpa using this
          exact (List.cons.injEq _ _ _ _ ▸ this).1
        rw [hh] at hc
        simp [isStripChar] at hc
    · rw [if_neg h1, if_neg h2]
      exact hsf

/-! ### Store and registry lemmas -/

theorem mem_storeSave (s : Store) (fn : String) (img : Img) :
    ∀ kv ∈ storeSave s fn img, kv = (fn, img) ∨ kv ∈ s := by
  induction s with
  | nil =>
    intro kv h
    simp [storeSave] at h
    left
    exact h
  | cons a tl ih =>
    intro kv h
    rw [storeSave] at h
    by_cases ha : a.1 = fn
    · rw [if_pos ha] at h
      rcases List.mem_cons.mp h with he | htl
      · left; exact he
      · right; exact List.mem_cons_of_mem a htl
    · rw [if_neg ha] at h
      rcases List.mem_cons.mp h with he | htl
      · right; rw [he]; exact List.mem_cons_self a tl
      · rcases ih kv htl with he | hmem
        · left; exact he
        · right; exact List.mem_cons_of_mem a hmem

theorem storeSave_pairwise (s : Store) (fn : String) (img : Img)
    (h : s.Pairwise (fun a b => a.1 ≠ b.1)) :
    (storeSave s fn img).Pairwise (fun a b => a.1 ≠ b.1) := by
  induction s with
  | nil => simp [storeSave]
  | cons a tl ih =>
    rw [List.pairwise_cons] at h
    obtain ⟨ha, htl⟩ := h
    rw [storeSave]
    by_cases hafn : a.1 = fn
    · rw [if_pos hafn, List.pairwise_cons]
      refine ⟨fun b hb => ?_, htl⟩
      have := ha b hb
      rw [← hafn]
      exact this
    · rw [if_neg hafn, List.pairwise_cons]
      refine ⟨fun b hb => ?_, ih htl⟩
      rcases mem_storeSave tl fn img b hb with he | hmem
      · rw [he]
        exact hafn
      · exact ha b hmem

theorem storeSave_keysOk (s : Store) (n : String) (img : Img)
    (h : StoreKeysOk s) : StoreKeysOk (storeSave s (keyFromName n) img) := by
  intro kv hkv
  rcases mem_storeSave s (keyFromName n) img kv hkv with he | hmem
  · exact ⟨n, by rw [he]⟩
  · exact h kv hmem

theorem storeRemove_storeInv (s : Store) (fn : String) (h : StoreInv s) :
    StoreInv (storeRemove s fn) :=
  ⟨h.1.filter _, fun kv hkv => h.2 kv (List.mem_of_mem_filter hkv)⟩

theorem storeSave_collapse (s : Store) (fn : String) (a b : Img) :
    storeSave (storeSave s fn a) fn b = storeSave s fn b := by
  induction s with
  | nil => simp [storeSave]
  | cons kv tl ih =>
    rw [storeSave]
    by_cases h : kv.1 = fn
    · rw [if_pos h, storeSave, if_pos rfl, storeSave, if_pos h]
    · rw [if_neg h, storeSave, if_neg h, ih, storeSave, if_neg h]

theorem storeSave_filter_key (s : Store) (fn : String) (img : Img)
    (h : s.Pairwise (fun a b => a.1 ≠ b.1)) :
    (storeSave s fn img).filter (fun kv => kv.1 = fn) = [(fn, img)] := by
  induction s with
  | nil => simp [storeSave]
  | cons a tl ih =>
    rw [List.pairwise_cons] at h
    obtain ⟨ha, htl⟩ := h
    rw [storeSave]
    by_cases hafn : a.1 = fn
    · rw [if_pos hafn, List.filter_cons]
      have hclean : tl.filter (fun kv => kv.1 = fn) = [] := by
        apply List.filter_eq_nil_iff.mpr
        intro b hb
        have := ha b hb
        rw [hafn] at this
        simpa using this.symm
      simp [hclean]
    · rw [if_neg hafn, List.filter_cons]
      rw [ih htl]
      simp [hafn]

theorem loadEntry_label (kv : String × Img) (x : String × Desc)
    (h : loadEntry kv = some x) : x.1 = stemOf kv.1 := by
  unfold loadEntry at h
  by_cases ha : allowedFile kv.1 = true
  · rw [if_pos ha] at h
    rcases hf : kv.2.faces with _ | ⟨e, rest⟩
    · rw [hf] at h
      simp at h
    · rw [hf] at h
      simp at h
      rw [← h]
  · rw [if_neg ha] at h
    simp at h

theorem loadKnownFaces_pairwise (store : Store) (hinv : StoreInv store) :
    (loadKnownFaces store).Pairwise (fun a b => a.1 ≠ b.1) := by
  unfold loadKnownFaces
  rw [List.pairwise_filterMap]
  refine hinv.1.imp_of_mem ?_
  intro kv1 kv2 h1m h2m hne
  intro x hx y hy
  obtain ⟨m1, hm1⟩ := hinv.2 kv1 h1m
  obtain ⟨m2, hm2⟩ := hinv.2 kv2 h2m
  have hx1 : x.1 = stemOf kv1.1 := loadEntry_label _ _ (by simpa using hx)
  have hy1 : y.1 = stemOf kv2.1 := loadEntry_label _ _ (by simpa using hy)
  rw [hx1, hy1, hm1, hm2]
  exact stemOf_keyFromName_inj m1 m2 (by rw [← hm1, ← hm2]; exact hne)

theorem count_le_one_of_pairwise (l : List (String × Desc))
    (h : l.Pairwise (fun a b => a.1 ≠ b.1)) (lab : String) :
    (l.filter (fun kv => kv.1 = lab)).length ≤ 1 := by
  induction l with
  | nil => simp
  | cons a tl ih =>
    rw [List.pairwise_cons] at h
    obtain ⟨ha, htl⟩ := h
    rw [List.filter_cons]
    by_cases hal : a.1 = lab
    · have hclean : tl.filter (fun kv => kv.1 = lab) = [] := by
        apply List.filter_eq_nil_iff.mpr
        intro b hb
        have := ha b hb
        rw [hal] at this
        simpa using this.symm
      simp [hal, hclean]
    · simpa [hal] using ih htl

theorem registerFace_ok_eq (st : ServiceState) (u : String) (img : Img)
    (n : String) (hn : n ≠ "") (hu : allowedFile u = true)
    (hf : img.faces ≠ []) :
    registerFace st u img n =
      (⟨storeSave st.store (keyFromName n) img,
        loadKnownFaces (storeSave st.store (keyFromName n) img)⟩,
        RegisterResult.ok) := by
  unfold registerFace
  rw [if_neg hn, if_neg (by simp [hu]), if_neg hf]

theorem reachable_regInv (st : ServiceState) (h : Reachable st) : RegInv st := by
  induction h with
  | start =>
    refine ⟨⟨List.Pairwise.nil, fun kv hkv => absurd hkv (by simp)⟩, ?_⟩
    show (loadKnownFaces []).Pairwise _
    exact List.Pairwise.nil
  | reg st u img n hst ih =>
    unfold registerFace
    by_cases hn : n = ""
    · rw [if_pos hn]
      exact ih
    · rw [if_neg hn]
      by_cases hu : allowedFile u = true
      · rw [if_neg (by simp [hu])]
        by_cases hf : img.faces = []
        · rw [if_pos hf]
          exact ⟨storeRemove_storeSave st.store (keyFromName n) img ▸
            storeRemove_storeInv st.store (keyFromName n) ih.1, ih.2⟩
        · rw [if_neg hf]
          have hinv1 : StoreInv (storeSave st.store (keyFromName n) img) :=
            ⟨storeSave_pairwise st.store (keyFromName n) img ih.1.1,
             storeSave_keysOk st.store n img ih.1.2⟩
          exact ⟨hinv1, loadKnownFaces_pairwise _ hinv1⟩
      · rw [if_pos (by simp [hu])]
        exact ih
  | del st n hst ih =>
    unfold deleteFace
    by_cases hany : st.store.any (fun kv => kv.1 = keyFromName n) = true
    · rw [if_pos hany]
      have hinv1 : StoreInv (storeRemove st.store (keyFromName n)) :=
        storeRemove_storeInv st.store (keyFromName n) ih.1
      exact ⟨hinv1, loadKnownFaces_pairwise _ hinv1⟩
    · rw [if_neg hany]
      exact ih

theorem loadKnownFaces_filter_stem (store : Store) (n : String)
    (hkeys : StoreKeysOk store) :
    (loadKnownFaces store).filter (fun kv => kv.1 = stemOf (keyFromName n)) =
      loadKnownFaces (store.filter (fun kv => kv.1 = keyFromName n)) := by
  induction store with
  | nil => rfl
  | cons kv tl ih =>
    obtain ⟨m, hm⟩ := hkeys kv (List.mem_cons_self kv tl)
    have htl : StoreKeysOk tl := fun x hx => hkeys x (List.mem_cons_of_mem kv hx)
    show ((kv :: tl).filterMap loadEntry).filter _ =
      ((kv :: tl).filter (fun kv => kv.1 = keyFromName n)).filterMap loadEntry
    rcases hle : loadEntry kv with _ | x
    · rw [List.filterMap_cons_none hle]
      by_cases hkeq : kv.1 = keyFromName n
      · rw [List.filter_cons_of_pos (by simp [hkeq]),
          List.filterMap_cons_none hle]
        exact ih htl
      · rw [List.filter_cons_of_neg (by simp [hkeq])]
        exact ih htl
    · have hx1 : x.1 = stemOf kv.1 := loadEntry_label kv x hle
      rw [List.filterMap_cons_some hle]
      by_cases hkeq : kv.1 = keyFromName n
      · have hxstem : x.1 = stemOf (keyFromName n) := by rw [hx1, hkeq]
        rw [List.filter_cons_of_pos (by simp [hxstem]),
          List.filter_cons_of_pos (by simp [hkeq]),
          List.filterMap_cons_some hle]
        exact congrArg (List.cons x) (ih htl)
      · have hxstem : x.1 ≠ stemOf (keyFromName n) := by
          rw [hx1, hm]
          exact stemOf_keyFromName_inj m n (by rw [← hm]; exact hkeq)
        rw [List.filter_cons_of_neg (by simp [hxstem]),
          List.filter_cons_of_neg (by simp [hkeq])]
        exact ih htl

/-! ### Claim theorems: C5, C10 -/

/-- C5 counterexample: a startup reload over a pre-existing store holding
both `bob.jpg` and `bob.png` (two allowed files with the same stem) binds
the label `bob` to two Identities, so the "at most one Identity per label"
invariant does not hold in every state reachable through startup reload. -/
theorem loadKnownFaces_duplicate_label_cex :
    ((loadKnownFaces [("bob.jpg", ⟨[[1]]⟩), ("bob.png", ⟨[[2]]⟩)]).filter
        (fun kv => kv.1 = "bob")).length = 2 ∧
    ¬ ((loadKnownFaces [("bob.jpg", ⟨[[1]]⟩), ("bob.png", ⟨[[2]]⟩)]).filter
        (fun kv => kv.1 = "bob")).length ≤ 1 :=
  ⟨by decide, by decide⟩

/-- C5 amended: in every state reachable from a startup reload over an
EMPTY store by enrollment and deletion (the operations themselves), each
label is bound to at most one Identity; and from any such state, enrolling
the same label twice leaves exactly one Identity for that label, carrying
the second image's descriptor.  The original claim fails only for startup
reloads over stores that already hold two allowed files with the same
stem (e.g. `bob.jpg` and `bob.png`), which enrollment alone can never
produce since it writes only `secure_filename(label).jpg`. -/
theorem registry_label_unique_amended :
    (∀ st, Reachable st → ∀ lab,
      (st.registry.filter (fun kv => kv.1 = lab)).length ≤ 1) ∧
    (∀ st u1 u2 img1 img2 n, Reachable st → n ≠ "" →
      allowedFile u1 = true → allowedFile u2 = true →
      img1.faces ≠ [] → img2.faces ≠ [] →
      ((registerFace (registerFace st u1 img1 n).1 u2 img2 n).1.registry.filter
          (fun kv => kv.1 = stemOf (keyFromName n))) =
        [(stemOf (keyFromName n), img2.faces.headI)]) := by
  constructor
  · intro st h lab
    exact count_le_one_of_pairwise _ (reachable_regInv st h).2 lab
  · intro st u1 u2 img1 img2 n hst hn hu1 hu2 hf1 hf2
    have hinv := (reachable_regInv st hst).1
    rw [registerFace_ok_eq st u1 img1 n hn hu1 hf1,
      registerFace_ok_eq _ u2 img2 n hn hu2 hf2]
    show (loadKnownFaces (storeSave (storeSave st.store (keyFromName n) img1)
        (keyFromName n) img2)).filter (fun kv => kv.1 = stemOf (keyFromName n)) = _
    rw [storeSave_collapse]
    have hkeys2 : StoreKeysOk (storeSave st.store (keyFromName n) img2) :=
      storeSave_keysOk st.store n img2 hinv.2
    rw [loadKnownFaces_filter_stem _ n hkeys2,
      storeSave_filter_key st.store (keyFromName n) img2 hinv.1]
    obtain ⟨e, rest, hfe⟩ := List.exists_cons_of_ne_nil hf2
    have hle : loadEntry (keyFromName n, img2) =
        some (stemOf (keyFromName n), e) := by
      have ha := allowedFile_keyFromName n
      simp [loadEntry, ha, hfe]
    show List.filterMap loadEntry [(keyFromName n, img2)] = _
    rw [List.filterMap_cons_some hle]
    simp [hfe]

/-- C5 amended, witness: from the empty startup state, enrolling `bob`
twice (first with descriptor `[1]`, then `[2]`) leaves exactly the single
registry entry `(bob, [2])`; the startup state itself has at most one
entry per label. -/
theorem registry_label_unique_amended_witness :
    (Reachable (⟨[], loadKnownFaces []⟩ : ServiceState) ∧
      ((⟨[], loadKnownFaces []⟩ : ServiceState).registry.filter
        (fun kv => kv.1 = "bob")).length ≤ 1) ∧
    (("bob" : String) ≠ "" ∧ allowedFile "u.jpg" = true ∧
      (Img.mk [[1]]).faces ≠ [] ∧ (Img.mk [[2]]).faces ≠ [] ∧
      ((registerFace (registerFace (⟨[], loadKnownFaces []⟩ : ServiceState)
          "u.jpg" ⟨[[1]]⟩ "bob").1 "u.jpg" ⟨[[2]]⟩ "bob").1.registry.filter
          (fun kv => kv.1 = stemOf (keyFromName "bob"))) =
        [(stemOf (keyFromName "bob"), (Img.mk [[2]]).faces.headI)]) :=
  ⟨⟨Reachable.start, registry_label_unique_amended.1 _ Reachable.start "bob"⟩,
   by decide, by decide, by decide, by decide,
   registry_label_unique_amended.2 _ "u.jpg" "u.jpg" ⟨[[1]]⟩ ⟨[[2]]⟩ "bob"
     Reachable.start (by decide) (by decide) (by decide) (by decide) (by decide)⟩

/-- C10: enrollment and deletion key the identity store by the sanitized
form of the submitted label (`secure_filename`), not the label itself:
for any two labels whose sanitized forms coincide, enrolling both leaves
the store with the single entry of the second enrollment under the shared
key (the second overwrites the first; with distinct store filenames,
filtering on that key yields exactly the second image), and delete
succeeds for any name whose sanitized form matches a stored entry. -/
theorem store_keyed_by_sanitized_label :
    (∀ st u1 u2 img1 img2 n1 n2, n1 ≠ "" → n2 ≠ "" →
      allowedFile u1 = true → allowedFile u2 = true →
      img1.faces ≠ [] → img2.faces ≠ [] →
      secureFilename n1 = secureFilename n2 →
      (registerFace (registerFace st u1 img1 n1).1 u2 img2 n2).1.store =
        storeSave st.store (keyFromName n2) img2 ∧
      (st.store.Pairwise (fun a b => a.1 ≠ b.1) →
        ((registerFace (registerFace st u1 img1 n1).1 u2 img2 n2).1.store.filter
            (fun kv => kv.1 = keyFromName n2)) = [(keyFromName n2, img2)])) ∧
    (∀ st nm, (∃ kv ∈ st.store, kv.1 = keyFromName nm) →
      (deleteFace st nm).2 = true) := by
  constructor
  · intro st u1 u2 img1 img2 n1 n2 hn1 hn2 hu1 hu2 hf1 hf2 hsec
    have hkey : keyFromName n1 = keyFromName n2 := keyFromName_congr n1 n2 hsec
    rw [registerFace_ok_eq st u1 img1 n1 hn1 hu1 hf1,
      registerFace_ok_eq _ u2 img2 n2 hn2 hu2 hf2]
    constructor
    · show storeSave (storeSave st.store (keyFromName n1) img1)
        (keyFromName n2) img2 = _
      rw [hkey, storeSave_collapse]
    · intro hpw
      show (storeSave (storeSave st.store (keyFromName n1) img1) (keyFromName n2)
          img2).filter (fun kv => kv.1 = keyFromName n2) = _
      rw [hkey, storeSave_collapse]
      exact storeSave_filter_key st.store (keyFromName n2) img2 hpw
  · intro st nm hex
    have hany : st.store.any (fun kv => kv.1 = keyFromName nm) = true := by
      rw [List.any_eq_true]
      obtain ⟨kv, hmem, hk⟩ := hex
      exact ⟨kv, hmem, by simp [hk]⟩
    unfold deleteFace
    rw [if_pos hany]

/-- C10 witness: `"a b"` and `"a_b"` are distinct labels with the same
sanitized form; enrolling both from the empty store leaves the single
entry `a_b.jpg ↦ second image`, and `delete("a b")` succeeds against a
store holding `a_b.jpg`. -/
theorem store_keyed_by_sanitized_label_witness :
    (("a b" : String) ≠ "a_b" ∧ secureFilename "a b" = secureFilename "a_b") ∧
    ((registerFace (registerFace (⟨[], []⟩ : ServiceState) "u.jpg" ⟨[[1]]⟩
          "a b").1 "u.jpg" ⟨[[2]]⟩ "a_b").1.store =
        storeSave ([] : Store) (keyFromName "a_b") ⟨[[2]]⟩ ∧
      (([] : Store).Pairwise (fun a b => a.1 ≠ b.1) →
        ((registerFace (registerFace (⟨[], []⟩ : ServiceState) "u.jpg" ⟨[[1]]⟩
            "a b").1 "u.jpg" ⟨[[2]]⟩ "a_b").1.store.filter
          (fun kv => kv.1 = keyFromName "a_b")) = [(keyFromName "a_b", ⟨[[2]]⟩)])) ∧
    ((∃ kv ∈ ([("a_b.jpg", ⟨[[2]]⟩)] : Store), kv.1 = keyFromName "a b") ∧
      (deleteFace (⟨[("a_b.jpg", ⟨[[2]]⟩)], []⟩ : ServiceState) "a b").2 = true) :=
  ⟨⟨by decide, by decide⟩,
   store_keyed_by_sanitized_label.1 ⟨[], []⟩ "u.jpg" "u.jpg" ⟨[[1]]⟩ ⟨[[2]]⟩
     "a b" "a_b" (by decide) (by decide) (by decide) (by decide) (by decide)
     (by decide) (by decide),
   ⟨by decide,
    store_keyed_by_sanitized_label.2 ⟨[("a_b.jpg", ⟨[[2]]⟩)], []⟩ "a b"
      (by decide)⟩⟩

/-! ### Counting lemmas for the LBP histogram (C6) -/

theorem sum_map_add_nat (l : List ℕ) (f g : ℕ → ℕ) :
    (l.map (fun i => f i + g i)).sum = (l.map f).sum + (l.map g).sum := by
  induction l with
  | nil => simp
  | cons a tl ih => simp [ih]; omega

theorem sum_map_const_nat (l : List ℕ) (c : ℕ) :
    (l.map (fun _ => c)).sum = l.length * c := by
  induction l with
  | nil => simp
  | cons a tl ih => simp [ih]; ring

theorem sum_range_split (n : ℕ) (hn : 2 ≤ n) (f : ℕ → ℕ) :
    ((List.range n).map f).sum =
      f 0 + ((List.range' 1 (n - 2)).map f).sum + f (n - 1) := by
  obtain ⟨m, rfl⟩ : ∃ m, n = m + 2 := ⟨n - 2, by omega⟩
  rw [List.range_eq_range', show m + 2 = (m + 1) + 1 from rfl, List.range'_succ,
    List.range'_concat, show (0:ℕ) + 1 + 1 * m = m + 1 from by ring]
  simp [List.sum_append]
  omega

theorem count_range_split (n : ℕ) (hn : 2 ≤ n) (P : ℕ → Bool) :
    ((List.range n).filter P).length =
      (if P 0 = true then 1 else 0) + ((List.range' 1 (n - 2)).filter P).length +
        (if P (n - 1) = true then 1 else 0) := by
  obtain ⟨m, rfl⟩ : ∃ m, n = m + 2 := ⟨n - 2, by omega⟩
  rw [List.range_eq_range', show m + 2 = (m + 1) + 1 from rfl, List.range'_succ,
    List.range'_concat, show (0:ℕ) + 1 + 1 * m = m + 1 from by ring,
    List.filter_cons, List.filter_append]
  by_cases h0 : P 0 = true
  · by_cases hl : P (m + 1) = true
    · simp [h0, hl, List.filter_cons]
      omega
    · simp [h0, hl, List.filter_cons]
      omega
  · by_cases hl : P (m + 1) = true
    · simp [h0, hl, List.filter_cons]
    · simp [h0, hl, List.filter_cons]


theorem lbpValue_border_row (img : GrayImage) (i j : ℕ)
    (hi : ¬ (1 ≤ i ∧ i < img.h - 1)) : lbpValue img i j = 0 := by
  unfold lbpValue
  rw [if_neg]
  tauto

theorem lbpValue_border_col (img : GrayImage) (i j : ℕ)
    (hj : ¬ (1 ≤ j ∧ j < img.w - 1)) : lbpValue img i j = 0 := by
  unfold lbpValue
  rw [if_neg]
  tauto

theorem lbpValue_interior (img : GrayImage) (i j : ℕ)
    (hi : 1 ≤ i ∧ i < img.h - 1) (hj : 1 ≤ j ∧ j < img.w - 1) :
    lbpValue img i j = lbpCode img i j := by
  unfold lbpValue
  rw [if_pos ⟨hi.1, hi.2, hj.1, hj.2⟩]

theorem row_count_border (img : GrayImage) (b i : ℕ)
    (hi : ¬ (1 ≤ i ∧ i < img.h - 1)) :
    ((List.range img.w).filter (fun j => lbpValue img i j = b)).length =
      if b = 0 then img.w else 0 := by
  have hc : (List.range img.w).filter (fun j => lbpValue img i j = b) =
      (List.range img.w).filter (fun _ => decide ((0 : ℕ) = b)) := by
    apply List.filter_congr
    intro j hj
    rw [lbpValue_border_row img i j hi]
  rw [hc]
  by_cases hb : b = 0
  · rw [if_pos hb]
    rw [List.filter_eq_self.mpr (fun a ha => by simp [hb])]
    exact List.length_range img.w
  · rw [if_neg hb]
    rw [List.filter_eq_nil_iff.mpr (fun a ha => by simp; omega)]
    rfl

theorem row_count_interior (img : GrayImage) (b i : ℕ)
    (hi : 1 ≤ i ∧ i < img.h - 1) (hw : 2 ≤ img.w) :
    ((List.range img.w).filter (fun j => lbpValue img i j = b)).length =
      ((List.range' 1 (img.w - 2)).filter (fun j => lbpCode img i j = b)).length +
        (if b = 0 then 2 else 0) := by
  rw [count_range_split img.w hw]
  have h0 : lbpValue img i 0 = 0 := lbpValue_border_col img i 0 (by omega)
  have hl : lbpValue img i (img.w - 1) = 0 :=
    lbpValue_border_col img i (img.w - 1) (by omega)
  have hmid : (List.range' 1 (img.w - 2)).filter
        (fun j => decide (lbpValue img i j = b)) =
      (List.range' 1 (img.w - 2)).filter (fun j => decide (lbpCode img i j = b)) := by
    apply List.filter_congr
    intro j hj
    rw [List.mem_range'_1] at hj
    rw [lbpValue_interior img i j hi (by omega)]
  rw [hmid]
  by_cases hb : b = 0
  · simp [h0, hl, hb]
    omega
  · simp [h0, hl, hb, eq_comm]

theorem lbpHist_decomp (img : GrayImage) (hh : 2 ≤ img.h) (hw : 2 ≤ img.w)
    (b : ℕ) :
    lbpHist img b = specLbpHist img b +
      (if b = 0 then 2 * img.w + 2 * (img.h - 2) else 0) := by
  unfold lbpHist specLbpHist
  rw [sum_range_split img.h hh]
  rw [row_count_border img b 0 (by omega),
    row_count_border img b (img.h - 1) (by omega)]
  have hmid : (List.range' 1 (img.h - 2)).map (fun i =>
        ((List.range img.w).filter (fun j => lbpValue img i j = b)).length) =
      (List.range' 1 (img.h - 2)).map (fun i =>
        ((List.range' 1 (img.w - 2)).filter
          (fun j => lbpCode img i j = b)).length + (if b = 0 then 2 else 0)) := by
    apply List.map_congr_left
    intro i hi
    rw [List.mem_range'_1] at hi
    exact row_count_interior img b i (by omega) hw
  rw [hmid, sum_map_add_nat, sum_map_const_nat, List.length_range']
  by_cases hb : b = 0
  · simp [hb]
    omega
  · simp [hb]

theorem bit_shift_lt_256 (c : Prop) [Decidable c] (k : ℕ) (hk : k ≤ 7) :
    ((if c then 1 else 0) <<< k) < 256 := by
  rw [Nat.shiftLeft_eq]
  have h2 : (2 : ℕ) ^ k ≤ 2 ^ 7 := Nat.pow_le_pow_right (by norm_num) hk
  split
  · omega
  · omega

theorem lor_lt_256 (x y : ℕ) (hx : x < 256) (hy : y < 256) : x ||| y < 256 := by
  have h := Nat.bitwise_lt (f := or) (x := x) (y := y) (n := 8)
    (by simpa using hx) (by simpa using hy)
  simpa using h

theorem lbpCode_lt_256 (img : GrayImage) (i j : ℕ) : lbpCode img i j < 256 := by
  unfold lbpCode
  refine lor_lt_256 _ _ (lor_lt_256 _ _ (lor_lt_256 _ _ (lor_lt_256 _ _
    (lor_lt_256 _ _ (lor_lt_256 _ _ (lor_lt_256 _ _
      (bit_shift_lt_256 _ 7 (by norm_num)) (bit_shift_lt_256 _ 6 (by norm_num)))
      (bit_shift_lt_256 _ 5 (by norm_num))) (bit_shift_lt_256 _ 4 (by norm_num)))
      (bit_shift_lt_256 _ 3 (by norm_num))) (bit_shift_lt_256 _ 2 (by norm_num)))
      (bit_shift_lt_256 _ 1 (by norm_num))) (bit_shift_lt_256 _ 0 (by norm_num))

theorem lbpValue_lt_256 (img : GrayImage) (i j : ℕ) : lbpValue img i j < 256 := by
  unfold lbpValue
  split
  · exact lbpCode_lt_256 img i j
  · norm_num

theorem sum_ite_range_of_ge (n a : ℕ) (ha : n ≤ a) :
    ((List.range n).map (fun b => if a = b then 1 else 0)).sum = 0 := by
  induction n with
  | zero => rfl
  | succ n ih =>
    rw [List.range_succ, List.map_append, List.sum_append,
      ih (by omega)]
    simp
    omega

theorem sum_ite_range (n a : ℕ) (ha : a < n) :
    ((List.range n).map (fun b => if a = b then 1 else 0)).sum = 1 := by
  induction n with
  | zero => omega
  | succ n ih =>
    rw [List.range_succ, List.map_append, List.sum_append]
    by_cases h : a = n
    · rw [sum_ite_range_of_ge n a (by omega)]
      simp [h]
    · rw [ih (by omega)]
      simp [h]

theorem count_fiber_total (l : List ℕ) (v : ℕ → ℕ) (hv : ∀ x ∈ l, v x < 256) :
    ((List.range 256).map (fun b => (l.filter (fun j => v j = b)).length)).sum =
      l.length := by
  induction l with
  | nil =>
    show ((List.range 256).map (fun _ => 0)).sum = 0
    rw [sum_map_const_nat]
    omega
  | cons x tl ih =>
    have h1 : ∀ b, ((x :: tl).filter (fun j => v j = b)).length =
        (if v x = b then 1 else 0) + (tl.filter (fun j => v j = b)).length := by
      intro b
      rw [List.filter_cons]
      by_cases h : v x = b
      · simp [h]
        omega
      · simp [h]
    rw [List.map_congr_left (fun b _ => h1 b), sum_map_add_nat,
      sum_ite_range 256 (v x) (hv x (List.mem_cons_self x tl)),
      ih (fun y hy => hv y (List.mem_cons_of_mem x hy))]
    rw [List.length_cons]
    omega

theorem sum_sum_comm (l1 l2 : List ℕ) (f : ℕ → ℕ → ℕ) :
    (l1.map (fun a => (l2.map (fun b => f a b)).sum)).sum =
      (l2.map (fun b => (l1.map (fun a => f a b)).sum)).sum := by
  induction l1 with
  | nil => simp
  | cons a tl ih =>
    rw [List.map_cons, List.sum_cons, ih, ← sum_map_add_nat]
    exact congrArg List.sum
      (List.map_congr_left (fun b _ => by rw [List.map_cons, List.sum_cons]))

theorem lbpHistSum_eq (img : GrayImage) : lbpHistSum img = img.h * img.w := by
  unfold lbpHistSum lbpHist
  rw [sum_sum_comm (List.range 256) (List.range img.h)
    (fun b i => ((List.range img.w).filter (fun j => lbpValue img i j = b)).length)]
  have hrow : ∀ i, ((List.range 256).map (fun b =>
      ((List.range img.w).filter (fun j => lbpValue img i j = b)).length)).sum =
      img.w := by
    intro i
    rw [count_fiber_total (List.range img.w) (fun j => lbpValue img i j)
      (fun x _ => lbpValue_lt_256 img i x)]
    exact List.length_range img.w
  rw [List.map_congr_left (fun i _ => hrow i), sum_map_const_nat,
    List.length_range]

theorem lbpCode_const (i j : ℕ) : lbpCode constImg128 i j = 255 := by
  show ((if (5:ℕ) ≥ 5 then 1 else 0) <<< 7) |||
    ((if (5:ℕ) ≥ 5 then 1 else 0) <<< 6) |||
    ((if (5:ℕ) ≥ 5 then 1 else 0) <<< 5) |||
    ((if (5:ℕ) ≥ 5 then 1 else 0) <<< 4) |||
    ((if (5:ℕ) ≥ 5 then 1 else 0) <<< 3) |||
    ((if (5:ℕ) ≥ 5 then 1 else 0) <<< 2) |||
    ((if (5:ℕ) ≥ 5 then 1 else 0) <<< 1) |||
    ((if (5:ℕ) ≥ 5 then 1 else 0) <<< 0) = 255
  decide

/-- C6 amended: for every 128×128 grayscale crop, the LBP component is
the 256-bin histogram of the whole 128×128 LBP image, in which interior
pixels carry the clockwise 8-neighbour code and the 1-pixel border
carries the value 0 that `np.zeros_like` initialised (so bin 0 is
inflated by the 508 border pixels), and it is normalized by the total of
all bins — the full pixel count 16384 — plus 1e-7, not by the count of
interior codes. -/
theorem lbpFeature_amended (img : GrayImage) (hh : img.h = 128) (hw : img.w = 128)
    (b : ℕ) :
    lbpHist img b = specLbpHist img b + (if b = 0 then 508 else 0) ∧
    lbpHistSum img = 16384 ∧
    lbpFeature img b =
      ((specLbpHist img b + (if b = 0 then 508 else 0) : ℕ) : ℚ) /
        ((16384 : ℚ) + histEps) := by
  have h1 := lbpHist_decomp img (by omega) (by omega) b
  rw [hh, hw] at h1
  have h1n : lbpHist img b = specLbpHist img b + (if b = 0 then 508 else 0) := by
    rw [h1]
  have h2 : lbpHistSum img = 16384 := by
    rw [lbpHistSum_eq, hh, hw]
  refine ⟨h1n, h2, ?_⟩
  unfold lbpFeature
  rw [h1n, h2]
  norm_num

theorem spec_const_zero : specLbpHist constImg128 0 = 0 := by
  unfold specLbpHist
  have hz : ∀ i, ((List.range' 1 (constImg128.w - 2)).filter
      (fun j => lbpCode constImg128 i j = 0)).length = 0 := by
    intro i
    rw [List.filter_eq_nil_iff.mpr (fun a ha => by simp [lbpCode_const])]
    rfl
  rw [List.map_congr_left (fun i _ => hz i), sum_map_const_nat]
  omega

/-- C6 counterexample: on the 128×128 constant crop (every pixel 5) every
interior LBP code is 255, so the histogram claimed by the spec has bin 0
equal to 0 — but the code's LBP component has a strictly positive bin 0
(the 508 zero-valued border pixels of `lbp_image` land there), so the LBP
component is not the histogram of exactly the interior codes. -/
theorem lbpFeature_includes_border_cex :
    specLbpFeature constImg128 0 = 0 ∧
    0 < lbpFeature constImg128 0 ∧
    lbpFeature constImg128 0 ≠ specLbpFeature constImg128 0 := by
  have hs : specLbpFeature constImg128 0 = 0 := by
    unfold specLbpFeature
    rw [spec_const_zero]
    norm_num
  have h508 : lbpHist constImg128 0 = 508 := by
    have h := lbpHist_decomp constImg128 (by norm_num [constImg128])
      (by norm_num [constImg128]) 0
    rw [spec_const_zero] at h
    simpa [constImg128] using h
  have hsum : lbpHistSum constImg128 = 16384 := by
    rw [lbpHistSum_eq]
    norm_num [constImg128]
  have hpos : 0 < lbpFeature constImg128 0 := by
    unfold lbpFeature
    rw [h508, hsum]
    apply div_pos
    · norm_num
    · norm_num [histEps]
  exact ⟨hs, hpos, by rw [hs]; exact ne_of_gt hpos⟩

/-- C6 amended, witness: the amended decomposition evaluated on the
constant 128×128 crop at bin 0. -/
theorem lbpFeature_amended_witness :
    (constImg128.h = 128 ∧ constImg128.w = 128) ∧
    (lbpHist constImg128 0 = specLbpHist constImg128 0 +
        (if 0 = 0 then 508 else 0) ∧
      lbpHistSum constImg128 = 16384 ∧
      lbpFeature constImg128 0 =
        ((specLbpHist constImg128 0 + (if 0 = 0 then 508 else 0) : ℕ) : ℚ) /
          ((16384 : ℚ) + histEps)) :=
  ⟨⟨rfl, rfl⟩, lbpFeature_amended constImg128 rfl rfl 0⟩

end FaceAPI
